import Mathlib

/-!
Verification of the override-versioning core of the weatherio backend.

The document store is modelled as a `List OverrideRecord` in natural
(insertion) order.  The Mongo query primitives used by the code are
embedded as list functions:

* `findOne(filter).sort({version: -1})` — `findOneVersionDesc`: among the
  records matching the filter, return the one with the highest `version`
  (the earliest such record on a tie);
* `updateMany(filter, {$set: {active: false}})` — `updateManyDeactivate`;
* `findOneAndUpdate(filter, {$set: {active: false}}, {new: true})` —
  `findOneAndUpdate`: patch the first matching record in natural order and
  return the patched record;
* `insert` / `save` — append to the list.

The three helpers `getLatestOverride`, `addOverride` and `removeOverride`
are translated directly from the source; `addOverrideWithSave` is the same
`addOverride` with an explicit success flag on the final `save` step, used
to reason about a failure of the insert after the bulk deactivation.
-/

set_option autoImplicit false

/-- An override document, following the `overrideSchema` of the source:
`lat`, `lon`, `date`, `newValues`, `updatedAt`, `updatedBy`, `version`,
`active`.  The payload `newValues` is opaque to the store and is modelled
as an association list of strings. -/
structure OverrideRecord where
  lat : String
  lon : String
  date : String
  newValues : List (String × String)
  updatedAt : String
  updatedBy : String
  version : Nat
  active : Bool
deriving DecidableEq, Repr

/-- The equality filter `{ lat, lon, date, updatedBy }` used by
`addOverride`: all records of the (location, date, owner) key, active or
not. -/
def keyMatch (lat lon date owner : String) (r : OverrideRecord) : Bool :=
  r.lat == lat && r.lon == lon && r.date == date && r.updatedBy == owner

/-- The filter `{ lat, lon, date, active: true, updatedBy }` used by
`getLatestOverride` and `removeOverride`. -/
def keyActiveMatch (lat lon date owner : String) (r : OverrideRecord) : Bool :=
  keyMatch lat lon date owner r && r.active

/-- The patch `{$set: {active: false}}`. -/
def deactivate (r : OverrideRecord) : OverrideRecord :=
  { r with active := false }

/-- `findOne(p).sort({version: -1})`: the record satisfying `p` with the
highest version, the earliest such record in natural order on a tie, or
`none` when no record matches. -/
def findOneVersionDesc (p : OverrideRecord → Bool) :
    List OverrideRecord → Option OverrideRecord
  | [] => none
  | r :: rest =>
    match findOneVersionDesc p rest with
    | none => if p r then some r else none
    | some b =>
      if p r then (if b.version > r.version then some b else some r) else some b

/-- `updateMany(p, {$set: {active: false}})`: deactivate every matching
record, leaving the rest untouched. -/
def updateManyDeactivate (p : OverrideRecord → Bool)
    (db : List OverrideRecord) : List OverrideRecord :=
  db.map (fun r => if p r then deactivate r else r)

/-- `findOneAndUpdate(p, patch, {new: true})`: patch the first matching
record in natural order, returning the patched record and the new store;
`(none, db)` when nothing matches. -/
def findOneAndUpdate (p : OverrideRecord → Bool)
    (patch : OverrideRecord → OverrideRecord) :
    List OverrideRecord → Option OverrideRecord × List OverrideRecord
  | [] => (none, [])
  | r :: rest =>
    if p r then (some (patch r), patch r :: rest)
    else
      let res := findOneAndUpdate p patch rest
      (res.1, r :: res.2)

/-- `getLatestOverride(lat, lon, date, userEmail)` from the source: the
active record of the key with the highest version, or none.  It performs
no write: the store is consumed read-only. -/
def getLatestOverride (lat lon date userEmail : String)
    (db : List OverrideRecord) : Option OverrideRecord :=
  findOneVersionDesc (keyActiveMatch lat lon date userEmail) db

/-- `addOverride(lat, lon, date, values, userEmail)` from the source:
read the highest-version record of the key (active or not), compute
`newVersion` as its version plus one (or 1), bulk-deactivate every record
of the key, then insert the new active record.  `now` stands for
`new Date().toISOString()`.  Returns the new record and the new store. -/
def addOverride (lat lon date : String) (values : List (String × String))
    (userEmail now : String) (db : List OverrideRecord) :
    OverrideRecord × List OverrideRecord :=
  let latest := findOneVersionDesc (keyMatch lat lon date userEmail) db
  let newVersion := match latest with | some l => l.version + 1 | none => 1
  let db1 := updateManyDeactivate (keyMatch lat lon date userEmail) db
  let newOverride : OverrideRecord :=
    { lat := lat, lon := lon, date := date, newValues := values,
      updatedAt := now, updatedBy := userEmail,
      version := newVersion, active := true }
  (newOverride, db1 ++ [newOverride])

/-- `removeOverride(lat, lon, date, userEmail)` from the source:
`findOneAndUpdate` on the active record of the key, setting
`active: false` and returning the updated record (`new: true`). -/
def removeOverride (lat lon date userEmail : String)
    (db : List OverrideRecord) :
    Option OverrideRecord × List OverrideRecord :=
  findOneAndUpdate (keyActiveMatch lat lon date userEmail) deactivate db

/-- `addOverride` with an explicit outcome for the final `save` step.
When `saveOk` is true this is exactly `addOverride`; when the insert
fails the bulk deactivation has already been applied and is not rolled
back (there is no transaction in the source), so the store is left in the
deactivated state and the error propagates. -/
def addOverrideWithSave (saveOk : Bool) (lat lon date : String)
    (values : List (String × String)) (userEmail now : String)
    (db : List OverrideRecord) :
    Except String OverrideRecord × List OverrideRecord :=
  let latest := findOneVersionDesc (keyMatch lat lon date userEmail) db
  let newVersion := match latest with | some l => l.version + 1 | none => 1
  let db1 := updateManyDeactivate (keyMatch lat lon date userEmail) db
  let newOverride : OverrideRecord :=
    { lat := lat, lon := lon, date := date, newValues := values,
      updatedAt := now, updatedBy := userEmail,
      version := newVersion, active := true }
  if saveOk then (Except.ok newOverride, db1 ++ [newOverride])
  else (Except.error "save-failed", db1)

/-- The active records of a (location, date, owner) key, in natural
order. -/
def activeForKey (lat lon date owner : String)
    (db : List OverrideRecord) : List OverrideRecord :=
  db.filter (keyActiveMatch lat lon date owner)

/-- The highest version present for a key (active or not), 0 when the key
has no records. -/
def maxVersionForKey (lat lon date owner : String)
    (db : List OverrideRecord) : Nat :=
  (db.filter (keyMatch lat lon date owner)).foldr
    (fun r m => max r.version m) 0

/-- The versions assigned by a sequence of `addOverride` calls on a fixed
key, each call given its payload and timestamp, threading the store. -/
def versionsAssigned (lat lon date owner : String)
    (args : List (List (String × String) × String))
    (db : List OverrideRecord) : List Nat :=
  match args with
  | [] => []
  | (v, t) :: rest =>
    let res := addOverride lat lon date v owner t db
    res.1.version :: versionsAssigned lat lon date owner rest res.2

/-- One store operation, as dispatched by the HTTP routes. -/
inductive Op where
  | getLatest (lat lon date owner : String)
  | add (lat lon date : String) (values : List (String × String))
      (owner now : String)
  | remove (lat lon date owner : String)

/-- The effect of one operation on the store.  `getLatest` performs no
write. -/
def applyOp (db : List OverrideRecord) : Op → List OverrideRecord
  | Op.getLatest _ _ _ _ => db
  | Op.add lat lon date values owner now =>
    (addOverride lat lon date values owner now db).2
  | Op.remove lat lon date owner =>
    (removeOverride lat lon date owner db).2

/-- The effect of a sequence of operations on the store. -/
def applyOps (db : List OverrideRecord) : List Op → List OverrideRecord
  | [] => db
  | op :: ops => applyOps (applyOp db op) ops

/-- A record `r` evolves to `q` when `q` is `r` unchanged or `r` with its
`active` flag cleared: the only in-place mutation the store ever performs. -/
def evolves (r q : OverrideRecord) : Prop :=
  q = r ∨ q = deactivate r

/-!  The lazy connection guard `ensureDb` of the source, modelled as a
state machine.  JavaScript runs the body of `ensureDb` atomically (the
only `await` is on the returned promise), so the guard logic is a
sequential function of the module state: `mongoose.connection.readyState`
(1 = connected) and the module-level variable `connectingPromise`
(modelled as the identifier of the in-flight connection attempt, `none`
when null).  The `.then`/`.catch` handlers installed on the attempt are
modelled by `settleAttempt`. -/

/-- The options literal passed to `mongoose.connect` in the source. -/
structure ConnOptions where
  serverSelectionTimeoutMS : Nat
  connectTimeoutMS : Nat
deriving DecidableEq, Repr

/-- The concrete options of the source: both timeouts are 3000 ms. -/
def mongooseConnectOptions : ConnOptions :=
  { serverSelectionTimeoutMS := 3000, connectTimeoutMS := 3000 }

/-- The module-level connection state. -/
structure ConnState where
  readyState : Nat
  connectingPromise : Option Nat
  nextAttempt : Nat
deriving DecidableEq, Repr

/-- What a call to `ensureDb` does before any suspension. -/
inductive EnsureOutcome where
  | errNoUri
  | alreadyConnected
  | awaitAttempt (id : Nat) (startedNew : Bool)
deriving DecidableEq, Repr

/-- `ensureDb` from the source: throw when `MONGO_URI` is unset, return at
once when already connected, otherwise await the in-flight attempt if one
exists, else start a fresh attempt and record it in the guard. -/
def ensureDb (hasUri : Bool) (s : ConnState) : EnsureOutcome × ConnState :=
  if hasUri = false then (EnsureOutcome.errNoUri, s)
  else if s.readyState = 1 then (EnsureOutcome.alreadyConnected, s)
  else
    match s.connectingPromise with
    | some id => (EnsureOutcome.awaitAttempt id false, s)
    | none =>
      (EnsureOutcome.awaitAttempt s.nextAttempt true,
       { s with connectingPromise := some s.nextAttempt,
                nextAttempt := s.nextAttempt + 1 })

/-- The `.then`/`.catch` handlers on the connection attempt: on success
the connection becomes ready (the guard keeps the resolved promise); on
failure the guard is reset to null so a later call retries, and the error
is rethrown to every awaiting caller. -/
def settleAttempt (s : ConnState) (success : Bool) :
    ConnState × Except String Bool :=
  if success then ({ s with readyState := 1 }, Except.ok true)
  else ({ s with connectingPromise := none }, Except.error "connect-failed")

/-!  Concrete fixtures used by witnesses and counterexamples. -/

/-- A version-1 active record of the key
`("12.0", "77.0", "2024-01-01", "a@x.com")`. -/
def recA : OverrideRecord :=
  { lat := "12.0", lon := "77.0", date := "2024-01-01",
    newValues := [("temp", "10")], updatedAt := "t1",
    updatedBy := "a@x.com", version := 1, active := true }

/-- A version-2 active record of the same key as `recA`: together they
violate the single-active invariant. -/
def recB : OverrideRecord :=
  { lat := "12.0", lon := "77.0", date := "2024-01-01",
    newValues := [("temp", "20")], updatedAt := "t2",
    updatedBy := "a@x.com", version := 2, active := true }

/-- An active record of a different owner at the same location and date. -/
def recOther : OverrideRecord :=
  { lat := "12.0", lon := "77.0", date := "2024-01-01",
    newValues := [("temp", "30")], updatedAt := "t3",
    updatedBy := "b@x.com", version := 5, active := true }

/-!  Basic facts about the record patch and the filters. -/

theorem deactivate_active (r : OverrideRecord) : (deactivate r).active = false := rfl

theorem deactivate_idem (r : OverrideRecord) : deactivate (deactivate r) = deactivate r := rfl

theorem deactivate_of_inactive {r : OverrideRecord} (h : r.active = false) :
    deactivate r = r := by
  cases r
  simp_all [deactivate]

theorem keyMatch_deactivate (lat lon date owner : String) (r : OverrideRecord) :
    keyMatch lat lon date owner (deactivate r) = keyMatch lat lon date owner r := rfl

theorem version_deactivate (r : OverrideRecord) : (deactivate r).version = r.version := rfl

theorem keyActiveMatch_deactivate (lat lon date owner : String) (r : OverrideRecord) :
    keyActiveMatch lat lon date owner (deactivate r) = false := by
  simp [keyActiveMatch, deactivate]

theorem keyActiveMatch_imp_keyMatch {lat lon date owner : String} {r : OverrideRecord}
    (h : keyActiveMatch lat lon date owner r = true) :
    keyMatch lat lon date owner r = true :=
  (Bool.and_eq_true_iff.mp h).1

/-!  Characterisation of `findOneVersionDesc`: it returns a matching
member whose version is maximal among the matching records, and `none`
exactly when nothing matches. -/

theorem findOneVersionDesc_mem {p : OverrideRecord → Bool} :
    ∀ {db : List OverrideRecord} {r : OverrideRecord},
      findOneVersionDesc p db = some r → r ∈ db ∧ p r = true
  | [], r => by simp [findOneVersionDesc]
  | q :: rest, r => by
    have ih := @findOneVersionDesc_mem p rest
    simp only [findOneVersionDesc]
    cases h : findOneVersionDesc p rest with
    | none =>
      cases hp : p q with
      | false => simp
      | true =>
        intro he
        obtain rfl : q = r := by simpa using he
        exact ⟨List.mem_cons_self _ _, hp⟩
    | some b =>
      cases hp : p q with
      | false =>
        intro he
        obtain rfl : b = r := by simpa using he
        obtain ⟨hm, hpb⟩ := ih h
        exact ⟨List.mem_cons_of_mem _ hm, hpb⟩
      | true =>
        by_cases hv : b.version > q.version
        · intro he
          obtain rfl : b = r := by simpa [hv] using he
          obtain ⟨hm, hpb⟩ := ih h
          exact ⟨List.mem_cons_of_mem _ hm, hpb⟩
        · intro he
          obtain rfl : q = r := by simpa [hv] using he
          exact ⟨List.mem_cons_self _ _, hp⟩

theorem findOneVersionDesc_eq_none {p : OverrideRecord → Bool} :
    ∀ {db : List OverrideRecord},
      findOneVersionDesc p db = none ↔ ∀ r ∈ db, p r = false
  | [] => by simp [findOneVersionDesc]
  | r :: rest => by
    have ih := @findOneVersionDesc_eq_none p rest
    simp only [findOneVersionDesc]
    cases h : findOneVersionDesc p rest with
    | none =>
      cases hp : p r with
      | false =>
        simp only [hp, if_false]
        constructor
        · intro _ q hq
          rcases List.mem_cons.mp hq with rfl | hq2
          · exact hp
          · exact ih.mp h q hq2
        · intro _; rfl
      | true =>
        simp only [hp, if_true]
        constructor
        · intro hc; exact absurd hc (by simp)
        · intro hall; exact absurd (hall r (List.mem_cons_self _ _)) (by simp [hp])
    | some b =>
      obtain ⟨hm, hpb⟩ := findOneVersionDesc_mem h
      constructor
      · intro hc
        cases hp : p r <;> simp only [hp, if_true, if_false] at hc
        · exact absurd hc (by simp)
        · split at hc <;> simp_all
      · intro hall
        exact absurd (hall b (List.mem_cons_of_mem _ hm)) (by simp [hpb])

theorem findOneVersionDesc_max {p : OverrideRecord → Bool} :
    ∀ {db : List OverrideRecord} {r : OverrideRecord},
      findOneVersionDesc p db = some r →
      ∀ q ∈ db, p q = true → q.version ≤ r.version
  | [], r => by simp [findOneVersionDesc]
  | x :: rest, r => by
    have ih := @findOneVersionDesc_max p rest
    simp only [findOneVersionDesc]
    cases h : findOneVersionDesc p rest with
    | none =>
      cases hp : p x with
      | false => simp
      | true =>
        intro he q hq hpq
        obtain rfl : x = r := by simpa using he
        rcases List.mem_cons.mp hq with rfl | hq2
        · exact Nat.le_refl _
        · exact absurd hpq (by simp [findOneVersionDesc_eq_none.mp h q hq2])
    | some b =>
      cases hp : p x with
      | false =>
        intro he q hq hpq
        obtain rfl : b = r := by simpa using he
        rcases List.mem_cons.mp hq with rfl | hq2
        · exact absurd hpq (by simp [hp])
        · exact ih h q hq2 hpq
      | true =>
        by_cases hv : b.version > x.version
        · intro he q hq hpq
          obtain rfl : b = r := by simpa [hv] using he
          rcases List.mem_cons.mp hq with rfl | hq2
          · exact Nat.le_of_lt hv
          · exact ih h q hq2 hpq
        · intro he q hq hpq
          obtain rfl : x = r := by simpa [hv] using he
          rcases List.mem_cons.mp hq with rfl | hq2
          · exact Nat.le_refl _
          · exact Nat.le_trans (ih h q hq2 hpq) (Nat.le_of_not_lt hv)

/-!  The version returned by the sorted `findOne` is the maximum version
among the matching records (0 when there is none). -/

theorem findOneVersionDesc_version_fold {p : OverrideRecord → Bool} :
    ∀ (db : List OverrideRecord),
      (findOneVersionDesc p db).elim 0 (fun r => r.version)
        = (db.filter p).foldr (fun r m => max r.version m) 0
  | [] => rfl
  | r :: rest => by
    have ih := @findOneVersionDesc_version_fold p rest
    simp only [findOneVersionDesc, List.filter_cons]
    cases h : findOneVersionDesc p rest with
    | none =>
      rw [h] at ih
      cases hp : p r with
      | false => simpa [hp] using ih
      | true => simp [hp, ← ih, Nat.max_zero]
    | some b =>
      rw [h] at ih
      cases hp : p r with
      | false => simpa [hp] using ih
      | true =>
        by_cases hv : b.version > r.version <;>
          simp only [hp, hv, if_true, if_false, List.foldr_cons, ← ih] <;>
          simp [Option.elim] <;> omega

theorem fold_version_init (l : List OverrideRecord) (i : Nat) :
    l.foldr (fun r m => max r.version m) i
      = max (l.foldr (fun r m => max r.version m) 0) i := by
  induction l with
  | nil => simp
  | cons r rest ih => simp [ih, Nat.max_assoc]

/-- The version `addOverride` assigns: one plus the highest version among
all records of the key (active or not), hence 1 when the key is fresh. -/
theorem addOverride_version (lat lon date : String)
    (values : List (String × String)) (owner now : String)
    (db : List OverrideRecord) :
    (addOverride lat lon date values owner now db).1.version
      = maxVersionForKey lat lon date owner db + 1 := by
  have hf := @findOneVersionDesc_version_fold
    (keyMatch lat lon date owner) db
  simp only [addOverride, maxVersionForKey]
  cases h : findOneVersionDesc (keyMatch lat lon date owner) db with
  | none => rw [h] at hf; simp [← hf]
  | some l => rw [h] at hf; simp [← hf]

theorem keyMatch_new (lat lon date : String)
    (values : List (String × String)) (owner now : String) (v : Nat) :
    keyMatch lat lon date owner
      { lat := lat, lon := lon, date := date, newValues := values,
        updatedAt := now, updatedBy := owner, version := v, active := true }
      = true := by
  simp [keyMatch]

theorem maxVersionForKey_updateMany (lat lon date owner : String)
    (db : List OverrideRecord) :
    maxVersionForKey lat lon date owner
        (updateManyDeactivate (keyMatch lat lon date owner) db)
      = maxVersionForKey lat lon date owner db := by
  induction db with
  | nil => rfl
  | cons r rest ih =>
    simp only [updateManyDeactivate, List.map_cons, maxVersionForKey,
      List.filter_cons] at ih ⊢
    cases hkm : keyMatch lat lon date owner r with
    | false => simpa [hkm] using ih
    | true => simp [hkm, keyMatch_deactivate, version_deactivate, ih]

/-- The store after `addOverride`: the bulk-deactivated records followed
by the newly inserted record. -/
theorem addOverride_store_eq (lat lon date : String)
    (values : List (String × String)) (owner now : String)
    (db : List OverrideRecord) :
    (addOverride lat lon date values owner now db).2
      = updateManyDeactivate (keyMatch lat lon date owner) db
          ++ [(addOverride lat lon date values owner now db).1] := rfl

theorem addOverride_keyMatch (lat lon date : String)
    (values : List (String × String)) (owner now : String)
    (db : List OverrideRecord) :
    keyMatch lat lon date owner (addOverride lat lon date values owner now db).1
      = true := by
  simp [addOverride, keyMatch]

theorem addOverride_active (lat lon date : String)
    (values : List (String × String)) (owner now : String)
    (db : List OverrideRecord) :
    (addOverride lat lon date values owner now db).1.active = true := rfl

theorem maxVersionForKey_append_single (lat lon date owner : String)
    (db : List OverrideRecord) (r : OverrideRecord)
    (h : keyMatch lat lon date owner r = true) :
    maxVersionForKey lat lon date owner (db ++ [r])
      = max (maxVersionForKey lat lon date owner db) r.version := by
  simp only [maxVersionForKey, List.filter_append, List.filter_cons, h,
    if_true, List.filter_nil, List.foldr_append, List.foldr_cons,
    List.foldr_nil, Nat.max_zero]
  exact fold_version_init _ _

/-- After an `addOverride`, the highest version of the key has grown by
exactly one. -/
theorem addOverride_maxVersion (lat lon date : String)
    (values : List (String × String)) (owner now : String)
    (db : List OverrideRecord) :
    maxVersionForKey lat lon date owner
        ((addOverride lat lon date values owner now db).2)
      = maxVersionForKey lat lon date owner db + 1 := by
  rw [addOverride_store_eq, maxVersionForKey_append_single _ _ _ _ _ _
    (addOverride_keyMatch lat lon date values owner now db),
    maxVersionForKey_updateMany, addOverride_version]
  omega

/-- The versions a run of `addOverride` calls assigns on a fixed key form
the arithmetic progression starting just above the current maximum. -/
theorem versionsAssigned_eq (lat lon date owner : String) :
    ∀ (args : List (List (String × String) × String))
      (db : List OverrideRecord),
      versionsAssigned lat lon date owner args db
        = List.range' (maxVersionForKey lat lon date owner db + 1) args.length
  | [], db => by simp [versionsAssigned]
  | (v, t) :: rest, db => by
    have ih := versionsAssigned_eq lat lon date owner rest
      (addOverride lat lon date v owner t db).2
    simp only [versionsAssigned, ih, addOverride_maxVersion,
      addOverride_version, List.length_cons, List.range']

/-- The bulk deactivation leaves no active record of the key. -/
theorem activeForKey_updateMany (lat lon date owner : String)
    (db : List OverrideRecord) :
    activeForKey lat lon date owner
        (updateManyDeactivate (keyMatch lat lon date owner) db) = [] := by
  simp only [activeForKey, updateManyDeactivate, List.filter_eq_nil_iff]
  intro a ha
  obtain ⟨r, _, rfl⟩ := List.mem_map.mp ha
  cases hkm : keyMatch lat lon date owner r with
  | true => simp [hkm, keyActiveMatch_deactivate]
  | false => simp [hkm, keyActiveMatch]

theorem addOverride_keyActiveMatch (lat lon date : String)
    (values : List (String × String)) (owner now : String)
    (db : List OverrideRecord) :
    keyActiveMatch lat lon date owner
      (addOverride lat lon date values owner now db).1 = true := by
  simp [keyActiveMatch, addOverride_keyMatch, addOverride_active]

/-- After `addOverride`, the new record is the one and only active record
of its key. -/
theorem addOverride_activeForKey (lat lon date : String)
    (values : List (String × String)) (owner now : String)
    (db : List OverrideRecord) :
    activeForKey lat lon date owner
        ((addOverride lat lon date values owner now db).2)
      = [(addOverride lat lon date values owner now db).1] := by
  rw [addOverride_store_eq]
  simp only [activeForKey, List.filter_append]
  have h1 := activeForKey_updateMany lat lon date owner db
  simp only [activeForKey] at h1
  rw [h1, List.filter_cons]
  simp [addOverride_keyActiveMatch lat lon date values owner now db]

/-!  Characterisation of `findOneAndUpdate`: it patches the first
matching record in natural order and nothing else, or does nothing when
no record matches. -/

theorem findOneAndUpdate_of_none {p : OverrideRecord → Bool}
    {patch : OverrideRecord → OverrideRecord} :
    ∀ {db : List OverrideRecord}, (∀ r ∈ db, p r = false) →
      findOneAndUpdate p patch db = (none, db)
  | [], _ => rfl
  | r :: rest, h => by
    have hp : p r = false := h r (List.mem_cons_self _ _)
    have ih := @findOneAndUpdate_of_none p patch rest
      (fun q hq => h q (List.mem_cons_of_mem _ hq))
    simp [findOneAndUpdate, hp, ih]

theorem findOneAndUpdate_spec (p : OverrideRecord → Bool)
    (patch : OverrideRecord → OverrideRecord) :
    ∀ db : List OverrideRecord,
      ((∀ r ∈ db, p r = false) ∧ findOneAndUpdate p patch db = (none, db)) ∨
      (∃ i a, db[i]? = some a ∧ p a = true ∧
        (∀ j b, j < i → db[j]? = some b → p b = false) ∧
        findOneAndUpdate p patch db = (some (patch a), db.set i (patch a)))
  | [] => Or.inl ⟨by simp, rfl⟩
  | r :: rest => by
    cases hp : p r with
    | true =>
      refine Or.inr ⟨0, r, by simp, hp, ?_, ?_⟩
      · intro j b hj; omega
      · simp [findOneAndUpdate, hp]
    | false =>
      rcases findOneAndUpdate_spec p patch rest with ⟨hall, heq⟩ | ⟨i, a, h1, h2, h3, h4⟩
      · refine Or.inl ⟨?_, ?_⟩
        · intro q hq
          rcases List.mem_cons.mp hq with rfl | hq2
          · exact hp
          · exact hall q hq2
        · simp [findOneAndUpdate, hp, heq]
      · refine Or.inr ⟨i + 1, a, by simpa using h1, h2, ?_, ?_⟩
        · intro j b hj hb
          cases j with
          | zero =>
            obtain rfl : r = b := by simpa using hb
            exact hp
          | succ j2 =>
            exact h3 j2 b (by omega) (by simpa using hb)
        · simp [findOneAndUpdate, hp, h4, List.set]

/-- Through a `findOneAndUpdate` that deactivates, every position of the
store keeps its record, either unchanged or deactivated. -/
theorem findOneAndUpdate_evolves (p : OverrideRecord → Bool)
    (db : List OverrideRecord) (i : Nat) (a : OverrideRecord)
    (ha : db[i]? = some a) :
    ∃ q, ((findOneAndUpdate p deactivate db).2)[i]? = some q ∧ evolves a q := by
  rcases findOneAndUpdate_spec p deactivate db with ⟨_, heq⟩ | ⟨j, b, h1, _, _, h4⟩
  · exact ⟨a, by rw [heq]; exact ha, Or.inl rfl⟩
  · rw [h4]
    by_cases hij : i = j
    · subst hij
      obtain rfl : a = b := by
        have := ha.symm.trans h1
        simpa using this
      have hlt : i < db.length := (List.getElem?_eq_some_iff.mp ha).1
      exact ⟨deactivate a, by simp [List.getElem?_set_self hlt], Or.inr rfl⟩
    · exact ⟨a, by rw [List.getElem?_set_ne (by omega)]; exact ha, Or.inl rfl⟩

/-- `removeOverride` on a key with no active record: returns `none` and
leaves the store untouched. -/
theorem removeOverride_of_no_active (lat lon date owner : String)
    (db : List OverrideRecord)
    (h : activeForKey lat lon date owner db = []) :
    removeOverride lat lon date owner db = (none, db) := by
  apply findOneAndUpdate_of_none
  intro r hr
  have := List.filter_eq_nil_iff.mp h r hr
  simpa using this

/-- `removeOverride` on a key with exactly one active record `a`: it
returns `a` deactivated, keeps it in the store, and leaves the key with
no active record. -/
theorem removeOverride_singleton (lat lon date owner : String) :
    ∀ (db : List OverrideRecord) (a : OverrideRecord),
      activeForKey lat lon date owner db = [a] →
      (removeOverride lat lon date owner db).1 = some (deactivate a) ∧
      deactivate a ∈ (removeOverride lat lon date owner db).2 ∧
      activeForKey lat lon date owner (removeOverride lat lon date owner db).2 = []
  | [], a => by simp [activeForKey]
  | r :: rest, a => by
    intro h
    cases hp : keyActiveMatch lat lon date owner r with
    | true =>
      simp only [activeForKey, List.filter_cons, hp, if_true,
        List.cons.injEq] at h
      obtain ⟨rfl, hrest⟩ := h
      constructor
      · simp [removeOverride, findOneAndUpdate, hp]
      constructor
      · simp [removeOverride, findOneAndUpdate, hp]
      · simp only [removeOverride, findOneAndUpdate, hp, if_true]
        simpa [activeForKey, List.filter_cons, keyActiveMatch_deactivate]
          using hrest
    | false =>
      simp only [activeForKey, List.filter_cons, hp, if_false] at h
      obtain ⟨h1, h2, h3⟩ := removeOverride_singleton lat lon date owner rest a h
      constructor
      · simpa [removeOverride, findOneAndUpdate, hp] using h1
      constructor
      · simp only [removeOverride, findOneAndUpdate, hp, if_false]
        exact List.mem_cons_of_mem _ h2
      · simp only [removeOverride, findOneAndUpdate, hp, if_false,
          activeForKey, List.filter_cons]
        simpa [activeForKey, hp] using h3

/-- `removeOverride` on a key with at most one active record leaves the
key with no active record. -/
theorem removeOverride_clears (lat lon date owner : String)
    (db : List OverrideRecord)
    (h : (activeForKey lat lon date owner db).length ≤ 1) :
    activeForKey lat lon date owner
      (removeOverride lat lon date owner db).2 = [] := by
  cases hk : activeForKey lat lon date owner db with
  | nil => rw [removeOverride_of_no_active lat lon date owner db hk]; exact hk
  | cons a t =>
    cases t with
    | nil => exact (removeOverride_singleton lat lon date owner db a hk).2.2
    | cons b t2 => rw [hk] at h; simp at h

/-!  Evolution of individual records across operations: a stored record
is only ever kept unchanged or deactivated in place. -/

theorem evolves_refl (a : OverrideRecord) : evolves a a := Or.inl rfl

theorem evolves_trans {a b c : OverrideRecord}
    (h1 : evolves a b) (h2 : evolves b c) : evolves a c := by
  rcases h1 with rfl | rfl
  · exact h2
  · rcases h2 with rfl | rfl
    · exact Or.inr rfl
    · exact Or.inr (deactivate_idem a)

theorem evolves_fields {a q : OverrideRecord} (h : evolves a q) :
    q.lat = a.lat ∧ q.lon = a.lon ∧ q.date = a.date ∧
    q.newValues = a.newValues ∧ q.updatedAt = a.updatedAt ∧
    q.updatedBy = a.updatedBy ∧ q.version = a.version ∧
    (a.active = false → q = a) := by
  rcases h with rfl | rfl
  · exact ⟨rfl, rfl, rfl, rfl, rfl, rfl, rfl, fun _ => rfl⟩
  · exact ⟨rfl, rfl, rfl, rfl, rfl, rfl, rfl, deactivate_of_inactive⟩

/-- What `addOverride` does to the record stored at any prior position:
key records are deactivated in place, the rest are untouched. -/
theorem addOverride_getElem (lat lon date : String)
    (values : List (String × String)) (owner now : String)
    (db : List OverrideRecord) (i : Nat) (a : OverrideRecord)
    (ha : db[i]? = some a) :
    ((addOverride lat lon date values owner now db).2)[i]?
      = some (if keyMatch lat lon date owner a then deactivate a else a) := by
  have hlt : i < db.length := (List.getElem?_eq_some_iff.mp ha).1
  rw [addOverride_store_eq]
  rw [List.getElem?_append_left (by simpa [updateManyDeactivate] using hlt)]
  simp [updateManyDeactivate, ha]

/-- The new record of `addOverride` sits at the end of the store. -/
theorem addOverride_getElem_last (lat lon date : String)
    (values : List (String × String)) (owner now : String)
    (db : List OverrideRecord) :
    ((addOverride lat lon date values owner now db).2)[db.length]?
      = some (addOverride lat lon date values owner now db).1 := by
  rw [addOverride_store_eq]
  have hlen : (updateManyDeactivate (keyMatch lat lon date owner) db).length
      = db.length := by simp [updateManyDeactivate]
  rw [← hlen]
  exact List.getElem?_concat_length _ _

theorem addOverride_length (lat lon date : String)
    (values : List (String × String)) (owner now : String)
    (db : List OverrideRecord) :
    (addOverride lat lon date values owner now db).2.length
      = db.length + 1 := by
  rw [addOverride_store_eq]
  simp [updateManyDeactivate]

/-- One operation keeps every stored record in place, unchanged or
deactivated. -/
theorem applyOp_evolves (op : Op) (db : List OverrideRecord)
    (i : Nat) (a : OverrideRecord) (ha : db[i]? = some a) :
    ∃ q, (applyOp db op)[i]? = some q ∧ evolves a q := by
  cases op with
  | getLatest lat lon date owner => exact ⟨a, ha, evolves_refl a⟩
  | add lat lon date values owner now =>
    refine ⟨if keyMatch lat lon date owner a then deactivate a else a,
      addOverride_getElem lat lon date values owner now db i a ha, ?_⟩
    split
    · exact Or.inr rfl
    · exact Or.inl rfl
  | remove lat lon date owner =>
    exact findOneAndUpdate_evolves (keyActiveMatch lat lon date owner) db i a ha

/-- A whole operation sequence keeps every originally stored record in
place, unchanged or deactivated. -/
theorem applyOps_evolves (ops : List Op) :
    ∀ (db : List OverrideRecord) (i : Nat) (a : OverrideRecord),
      db[i]? = some a →
      ∃ q, (applyOps db ops)[i]? = some q ∧ evolves a q := by
  induction ops with
  | nil => exact fun db i a ha => ⟨a, ha, evolves_refl a⟩
  | cons op rest ih =>
    intro db i a ha
    obtain ⟨q1, hq1, he1⟩ := applyOp_evolves op db i a ha
    obtain ⟨q2, hq2, he2⟩ := ih (applyOp db op) i q1 hq1
    exact ⟨q2, hq2, evolves_trans he1 he2⟩

/-- Appending a record of a different key does not change the highest
version of the key. -/
theorem maxVersionForKey_append_nonmatch (lat lon date owner : String)
    (db : List OverrideRecord) (b : OverrideRecord)
    (h : keyMatch lat lon date owner b = false) :
    maxVersionForKey lat lon date owner (db ++ [b])
      = maxVersionForKey lat lon date owner db := by
  simp [maxVersionForKey, List.filter_append, List.filter_cons, h]

/-- `getLatestOverride` returns empty exactly when the key has no active
record. -/
theorem getLatestOverride_eq_none_iff (lat lon date owner : String)
    (db : List OverrideRecord) :
    getLatestOverride lat lon date owner db = none ↔
      activeForKey lat lon date owner db = [] := by
  rw [getLatestOverride, findOneVersionDesc_eq_none, activeForKey,
    List.filter_eq_nil_iff]
  constructor
  · intro h r hr; simp [h r hr]
  · intro h r hr; simpa using h r hr

/-- C1: from every prior store state, even one where several records of
the (location, date, owner) key are active, `addOverride` deactivates
every previously existing record of the key in place, leaves non-key
records untouched, appends exactly one new record, and afterwards the
active records of the key are exactly the newly inserted one, which is
active. -/
theorem claim_C1_add_single_active (lat lon date : String)
    (values : List (String × String)) (owner now : String)
    (db : List OverrideRecord) :
    (∀ (i : Nat) (a : OverrideRecord), db[i]? = some a →
      keyMatch lat lon date owner a = true →
      ((addOverride lat lon date values owner now db).2)[i]?
        = some (deactivate a)) ∧
    (∀ (i : Nat) (a : OverrideRecord), db[i]? = some a →
      keyMatch lat lon date owner a = false →
      ((addOverride lat lon date values owner now db).2)[i]? = some a) ∧
    (addOverride lat lon date values owner now db).2.length = db.length + 1 ∧
    ((addOverride lat lon date values owner now db).2)[db.length]?
      = some (addOverride lat lon date values owner now db).1 ∧
    (addOverride lat lon date values owner now db).1.active = true ∧
    activeForKey lat lon date owner
        ((addOverride lat lon date values owner now db).2)
      = [(addOverride lat lon date values owner now db).1] := by
  refine ⟨?_, ?_, addOverride_length lat lon date values owner now db,
    addOverride_getElem_last lat lon date values owner now db,
    addOverride_active lat lon date values owner now db,
    addOverride_activeForKey lat lon date values owner now db⟩
  · intro i a ha hk
    rw [addOverride_getElem lat lon date values owner now db i a ha, hk]
    simp
  · intro i a ha hk
    rw [addOverride_getElem lat lon date values owner now db i a ha, hk]
    simp

/-- C1 witness at a concrete store with a key record and a foreign-owner
record. -/
theorem claim_C1_witness :
    ((addOverride "12.0" "77.0" "2024-01-01" [("temp", "20")] "a@x.com" "t9"
        [recOther, recA]).2)[1]? = some (deactivate recA) ∧
    ((addOverride "12.0" "77.0" "2024-01-01" [("temp", "20")] "a@x.com" "t9"
        [recOther, recA]).2)[0]? = some recOther := by
  have h := claim_C1_add_single_active "12.0" "77.0" "2024-01-01"
    [("temp", "20")] "a@x.com" "t9" [recOther, recA]
  exact ⟨h.1 1 recA (by decide) (by decide),
    h.2.1 0 recOther (by decide) (by decide)⟩

/-- C2: `addOverride` assigns one plus the highest version among all
records of the key (active or not; 1 when the key is fresh, since the
maximum over no records is 0), and every sequential run of `addOverride`
calls on a fixed key starting from the empty store assigns exactly the
versions 1, 2, 3, …. -/
theorem claim_C2_version_sequence (lat lon date owner : String) :
    (∀ (values : List (String × String)) (now : String)
        (db : List OverrideRecord),
      (addOverride lat lon date values owner now db).1.version
        = maxVersionForKey lat lon date owner db + 1) ∧
    (∀ args : List (List (String × String) × String),
      versionsAssigned lat lon date owner args []
        = List.range' 1 args.length) :=
  ⟨fun values now db => addOverride_version lat lon date values owner now db,
   fun args => versionsAssigned_eq lat lon date owner args []⟩

/-- C3: `getLatestOverride` returns an active record of the key whose
version is maximal among the key's active records, and returns empty
exactly when the key has no record or no active record.  The embedding
is a pure function of the store: the call performs no write. -/
theorem claim_C3_getLatest (lat lon date owner : String)
    (db : List OverrideRecord) :
    (getLatestOverride lat lon date owner db = none ↔
      activeForKey lat lon date owner db = []) ∧
    (∀ r, getLatestOverride lat lon date owner db = some r →
      r ∈ db ∧ keyActiveMatch lat lon date owner r = true ∧
      ∀ q ∈ db, keyActiveMatch lat lon date owner q = true →
        q.version ≤ r.version) := by
  refine ⟨getLatestOverride_eq_none_iff lat lon date owner db, ?_⟩
  intro r hr
  obtain ⟨hm, hp⟩ := findOneVersionDesc_mem hr
  exact ⟨hm, hp, findOneVersionDesc_max hr⟩

/-- C3 witness: an empty result on an all-inactive store, and the record
returned on a store holding versions 1 (inactive), 2 (active) plus a
foreign owner's record. -/
theorem claim_C3_witness :
    getLatestOverride "12.0" "77.0" "2024-01-01" "a@x.com"
      [deactivate recA] = none ∧
    recB ∈ [deactivate recA, recB, recOther] ∧
    recB.version ≤ recB.version := by
  have h1 := claim_C3_getLatest "12.0" "77.0" "2024-01-01" "a@x.com"
    [deactivate recA]
  have h2 := claim_C3_getLatest "12.0" "77.0" "2024-01-01" "a@x.com"
    [deactivate recA, recB, recOther]
  have h3 := h2.2 recB (by decide)
  exact ⟨h1.1.mpr (by decide), h3.1, h3.2.2 recB (by decide) (by decide)⟩

/-- C5: on any prior store, `addOverride` then `removeOverride` then
`getLatestOverride` on the same key yields an empty result, the remove
returned the added record deactivated, and that deactivated record is
still present in the store. -/
theorem claim_C5_add_remove_getLatest (lat lon date : String)
    (values : List (String × String)) (owner now : String)
    (db : List OverrideRecord) :
    getLatestOverride lat lon date owner
        (removeOverride lat lon date owner
          (addOverride lat lon date values owner now db).2).2 = none ∧
    (removeOverride lat lon date owner
        (addOverride lat lon date values owner now db).2).1
      = some (deactivate (addOverride lat lon date values owner now db).1) ∧
    deactivate (addOverride lat lon date values owner now db).1
      ∈ (removeOverride lat lon date owner
          (addOverride lat lon date values owner now db).2).2 ∧
    (deactivate (addOverride lat lon date values owner now db).1).active
      = false := by
  have hact := addOverride_activeForKey lat lon date values owner now db
  obtain ⟨h1, h2, h3⟩ := removeOverride_singleton lat lon date owner
    (addOverride lat lon date values owner now db).2
    (addOverride lat lon date values owner now db).1 hact
  exact ⟨(getLatestOverride_eq_none_iff lat lon date owner _).mpr h3,
    h1, h2, rfl⟩

/-- C4 counterexample: on a store where the key's invariant is already
violated (versions 1 and 2 both active), one `removeOverride` deactivates
only the first matching record, so the key is left with an active record
— the claim's universal "every stored state" fails. -/
theorem claim_C4_counterexample :
    (removeOverride "12.0" "77.0" "2024-01-01" "a@x.com" [recA, recB]).2
      = [deactivate recA, recB] ∧
    activeForKey "12.0" "77.0" "2024-01-01" "a@x.com"
      (removeOverride "12.0" "77.0" "2024-01-01" "a@x.com" [recA, recB]).2
      = [recB] := by decide

/-- C4 as amended: provided the key satisfies the single-active
invariant (at most one active record), `removeOverride` flips the active
record to inactive and returns it (empty, with the store untouched and no
error, when none is active), and both of two consecutive removes leave
the key with no active record. -/
theorem claim_C4_remove_idempotent (lat lon date owner : String)
    (db : List OverrideRecord)
    (hinv : (activeForKey lat lon date owner db).length ≤ 1) :
    (∀ a, activeForKey lat lon date owner db = [a] →
      (removeOverride lat lon date owner db).1 = some (deactivate a) ∧
      deactivate a ∈ (removeOverride lat lon date owner db).2) ∧
    (activeForKey lat lon date owner db = [] →
      removeOverride lat lon date owner db = (none, db)) ∧
    activeForKey lat lon date owner
      (removeOverride lat lon date owner db).2 = [] ∧
    removeOverride lat lon date owner (removeOverride lat lon date owner db).2
      = (none, (removeOverride lat lon date owner db).2) ∧
    activeForKey lat lon date owner
      (removeOverride lat lon date owner
        (removeOverride lat lon date owner db).2).2 = [] := by
  have hclear := removeOverride_clears lat lon date owner db hinv
  have hsecond := removeOverride_of_no_active lat lon date owner
    (removeOverride lat lon date owner db).2 hclear
  refine ⟨?_, removeOverride_of_no_active lat lon date owner db, hclear,
    hsecond, ?_⟩
  · intro a ha
    obtain ⟨h1, h2, _⟩ := removeOverride_singleton lat lon date owner db a ha
    exact ⟨h1, h2⟩
  · rw [hsecond]
    exact hclear

/-- C4 witness on a store with a single active record. -/
theorem claim_C4_witness :
    (removeOverride "12.0" "77.0" "2024-01-01" "a@x.com" [recA]).1
      = some (deactivate recA) ∧
    activeForKey "12.0" "77.0" "2024-01-01" "a@x.com"
      (removeOverride "12.0" "77.0" "2024-01-01" "a@x.com" [recA]).2 = [] ∧
    removeOverride "12.0" "77.0" "2024-01-01" "a@x.com"
        (removeOverride "12.0" "77.0" "2024-01-01" "a@x.com" [recA]).2
      = (none,
         (removeOverride "12.0" "77.0" "2024-01-01" "a@x.com" [recA]).2) := by
  have h := claim_C4_remove_idempotent "12.0" "77.0" "2024-01-01" "a@x.com"
    [recA] (by decide)
  exact ⟨(h.1 recA (by decide)).1, h.2.2.1, h.2.2.2.1⟩

/-- C6: an `addOverride` under owner A leaves every record of any other
owner B at the same location and date (indeed, at any position of the
store) exactly in place and unchanged, and A's assigned version is
insensitive to B's records: appending a record of B to the store does not
change the version A's `addOverride` computes. -/
theorem claim_C6_owner_isolation (lat lon date : String)
    (values : List (String × String)) (ownerA now ownerB : String)
    (hAB : ownerB ≠ ownerA) (db : List OverrideRecord) :
    (∀ (i : Nat) (a : OverrideRecord), db[i]? = some a →
      a.updatedBy = ownerB →
      ((addOverride lat lon date values ownerA now db).2)[i]? = some a) ∧
    (∀ b : OverrideRecord, b.updatedBy = ownerB →
      (addOverride lat lon date values ownerA now (db ++ [b])).1.version
        = (addOverride lat lon date values ownerA now db).1.version) := by
  constructor
  · intro i a ha hb
    have hk : keyMatch lat lon date ownerA a = false := by
      simp [keyMatch, hb, hAB]
    rw [addOverride_getElem lat lon date values ownerA now db i a ha, hk]
    simp
  · intro b hb
    have hk : keyMatch lat lon date ownerA b = false := by
      simp [keyMatch, hb, hAB]
    rw [addOverride_version, addOverride_version,
      maxVersionForKey_append_nonmatch lat lon date ownerA db b hk]

/-- C6 witness: owner `b@x.com`'s record survives `a@x.com`'s add
unchanged, and does not perturb the version computation. -/
theorem claim_C6_witness :
    ((addOverride "12.0" "77.0" "2024-01-01" [("temp", "20")] "a@x.com" "t9"
        [recOther, recA]).2)[0]? = some recOther ∧
    (addOverride "12.0" "77.0" "2024-01-01" [("temp", "20")] "a@x.com" "t9"
        ([recA] ++ [recOther])).1.version
      = (addOverride "12.0" "77.0" "2024-01-01" [("temp", "20")] "a@x.com"
          "t9" [recA]).1.version := by
  have h1 := claim_C6_owner_isolation "12.0" "77.0" "2024-01-01"
    [("temp", "20")] "a@x.com" "t9" "b@x.com" (by decide) [recOther, recA]
  have h2 := claim_C6_owner_isolation "12.0" "77.0" "2024-01-01"
    [("temp", "20")] "a@x.com" "t9" "b@x.com" (by decide) [recA]
  exact ⟨h1.1 0 recOther (by decide) (by decide),
    h2.2 recOther (by decide)⟩

/-- C7: under every sequence of `getLatest`/`add`/`remove` operations,
every originally stored record is still at its position, either unchanged
or with only its `active` flag flipped to false; once a record is
inactive no operation ever changes it again (in particular it is never
re-activated), and every field other than `active` is preserved. -/
theorem claim_C7_record_evolution (ops : List Op) (db : List OverrideRecord)
    (i : Nat) (a : OverrideRecord) (ha : db[i]? = some a) :
    (∃ q, (applyOps db ops)[i]? = some q) ∧
    ∀ q, (applyOps db ops)[i]? = some q →
      (q = a ∨ q = deactivate a) ∧ (a.active = false → q = a) ∧
      q.lat = a.lat ∧ q.lon = a.lon ∧ q.date = a.date ∧
      q.newValues = a.newValues ∧ q.updatedAt = a.updatedAt ∧
      q.updatedBy = a.updatedBy ∧ q.version = a.version := by
  obtain ⟨q0, hq0, he⟩ := applyOps_evolves ops db i a ha
  refine ⟨⟨q0, hq0⟩, ?_⟩
  intro q hq
  obtain rfl : q0 = q := by
    have := hq0.symm.trans hq
    simpa using this
  obtain ⟨h1, h2, h3, h4, h5, h6, h7, h8⟩ := evolves_fields he
  exact ⟨he, h8, h1, h2, h3, h4, h5, h6, h7⟩

/-- C7 witness: after an `add` on the same key, the original record is
deactivated in place and keeps all its other fields. -/
theorem claim_C7_witness :
    (deactivate recA = recA ∨ deactivate recA = deactivate recA) ∧
    (deactivate recA).version = recA.version := by
  have h := claim_C7_record_evolution
    [Op.add "12.0" "77.0" "2024-01-01" [("temp", "20")] "a@x.com" "t9"]
    [recA] 0 recA (by decide)
  have h2 := h.2 (deactivate recA) (by decide)
  exact ⟨h2.1, h2.2.2.2.2.2.2.2.2⟩

/-- C8: the connection guard of `ensureDb` is lazy and shared — a caller
finding the connection ready returns at once; a caller finding an attempt
in flight awaits that same attempt without starting a duplicate and
without touching the state; the first caller needing a connection starts
a fresh attempt and records it in the guard; a failed attempt clears the
guard (so the next call retries with a fresh attempt) and propagates the
error to the caller; a successful attempt marks the connection ready; and
establishment is bounded by the 3000 ms connection timeouts passed to
`mongoose.connect`. -/
theorem claim_C8_lazy_connect (s : ConnState) (id : Nat) :
    (s.readyState = 1 → ensureDb true s = (EnsureOutcome.alreadyConnected, s)) ∧
    (s.readyState ≠ 1 → s.connectingPromise = some id →
      ensureDb true s = (EnsureOutcome.awaitAttempt id false, s)) ∧
    (s.readyState ≠ 1 → s.connectingPromise = none →
      ensureDb true s
        = (EnsureOutcome.awaitAttempt s.nextAttempt true,
           { s with connectingPromise := some s.nextAttempt,
                    nextAttempt := s.nextAttempt + 1 })) ∧
    (settleAttempt s false).1.connectingPromise = none ∧
    (settleAttempt s false).2 = Except.error "connect-failed" ∧
    (settleAttempt s true).1.readyState = 1 ∧
    (settleAttempt s true).1.connectingPromise = s.connectingPromise ∧
    (s.readyState ≠ 1 →
      (ensureDb true (settleAttempt s false).1).1
        = EnsureOutcome.awaitAttempt s.nextAttempt true) ∧
    mongooseConnectOptions.connectTimeoutMS = 3000 ∧
    mongooseConnectOptions.serverSelectionTimeoutMS = 3000 := by
  refine ⟨?_, ?_, ?_, by simp [settleAttempt], by simp [settleAttempt],
    by simp [settleAttempt], by simp [settleAttempt], ?_, rfl, rfl⟩
  · intro h1; simp [ensureDb, h1]
  · intro h1 h2; simp [ensureDb, h1, h2]
  · intro h1 h2; simp [ensureDb, h1, h2]
  · intro h1; simp [ensureDb, settleAttempt, h1]

/-- C8 witness on a concrete guard state: an in-flight attempt is
re-awaited, a failure clears the guard, and the retry starts attempt 8. -/
theorem claim_C8_witness :
    ensureDb true
        { readyState := 0, connectingPromise := some 7, nextAttempt := 8 }
      = (EnsureOutcome.awaitAttempt 7 false,
         { readyState := 0, connectingPromise := some 7, nextAttempt := 8 }) ∧
    (settleAttempt
        { readyState := 0, connectingPromise := some 7, nextAttempt := 8 }
        false).1.connectingPromise = none ∧
    (ensureDb true
        (settleAttempt
          { readyState := 0, connectingPromise := some 7, nextAttempt := 8 }
          false).1).1
      = EnsureOutcome.awaitAttempt 8 true := by
  have h := claim_C8_lazy_connect
    { readyState := 0, connectingPromise := some 7, nextAttempt := 8 } 7
  exact ⟨h.2.1 (by decide) (by decide), h.2.2.2.1,
    h.2.2.2.2.2.2.2.1 (by decide)⟩

theorem updateMany_map_version (p : OverrideRecord → Bool) :
    ∀ db : List OverrideRecord,
      (updateManyDeactivate p db).map (fun r => r.version)
        = db.map (fun r => r.version)
  | [] => rfl
  | r :: rest => by
    have ih := updateMany_map_version p rest
    cases hp : p r <;>
      simp only [updateManyDeactivate, List.map_cons, hp, if_true, if_false,
        version_deactivate, List.map] at ih ⊢ <;>
      simp [ih]

/-- C9: `addOverride` is not atomic with respect to a failure of the
final insert.  With a successful save it is exactly `addOverride`; when
the save fails after the bulk deactivation, the error propagates while
the store is left bulk-deactivated: the key has zero active records, no
record was inserted (same length, same versions in place), and on any
store that had an active record of the key the state has changed even
though the operation errored. -/
theorem claim_C9_nonatomic_add (lat lon date : String)
    (values : List (String × String)) (owner now : String)
    (db : List OverrideRecord) :
    addOverrideWithSave true lat lon date values owner now db
      = (Except.ok (addOverride lat lon date values owner now db).1,
         (addOverride lat lon date values owner now db).2) ∧
    (addOverrideWithSave false lat lon date values owner now db).1
      = Except.error "save-failed" ∧
    (addOverrideWithSave false lat lon date values owner now db).2
      = updateManyDeactivate (keyMatch lat lon date owner) db ∧
    activeForKey lat lon date owner
      (addOverrideWithSave false lat lon date values owner now db).2 = [] ∧
    ((addOverrideWithSave false lat lon date values owner now db).2).map
        (fun r => r.version) = db.map (fun r => r.version) ∧
    ((addOverrideWithSave false lat lon date values owner now db).2).length
      = db.length ∧
    (activeForKey lat lon date owner db ≠ [] →
      (addOverrideWithSave false lat lon date values owner now db).2 ≠ db) := by
  refine ⟨rfl, rfl, rfl, activeForKey_updateMany lat lon date owner db,
    updateMany_map_version (keyMatch lat lon date owner) db,
    by simp [addOverrideWithSave, updateManyDeactivate], ?_⟩
  intro hne heq
  have h0 := activeForKey_updateMany lat lon date owner db
  rw [show (addOverrideWithSave false lat lon date values owner now db).2
      = updateManyDeactivate (keyMatch lat lon date owner) db from rfl] at heq
  rw [heq] at h0
  exact hne h0

/-- C9 witness: with an active record of the key present, the failed-save
path errors while still mutating the store. -/
theorem claim_C9_witness :
    (addOverrideWithSave false "12.0" "77.0" "2024-01-01" [("temp", "20")]
        "a@x.com" "t9" [recA]).1 = Except.error "save-failed" ∧
    (addOverrideWithSave false "12.0" "77.0" "2024-01-01" [("temp", "20")]
        "a@x.com" "t9" [recA]).2 ≠ [recA] := by
  have h := claim_C9_nonatomic_add "12.0" "77.0" "2024-01-01"
    [("temp", "20")] "a@x.com" "t9" [recA]
  exact ⟨h.2.1, h.2.2.2.2.2.2 (by decide)⟩

/-- C10: `removeOverride` modifies at most one stored record: either
nothing matches and the store is returned untouched, or the first active
record of the key (every earlier position not matching) is deactivated in
place via `List.set`, every other position keeping its record — even when
several active records of the key exist. -/
theorem claim_C10_remove_frame (lat lon date owner : String)
    (db : List OverrideRecord) :
    (removeOverride lat lon date owner db = (none, db) ∧
      ∀ r ∈ db, keyActiveMatch lat lon date owner r = false) ∨
    (∃ (i : Nat) (a : OverrideRecord), db[i]? = some a ∧
      keyActiveMatch lat lon date owner a = true ∧
      (∀ (j : Nat) (b : OverrideRecord), j < i → db[j]? = some b →
        keyActiveMatch lat lon date owner b = false) ∧
      removeOverride lat lon date owner db
        = (some (deactivate a), db.set i (deactivate a)) ∧
      (∀ j : Nat, j ≠ i →
        ((removeOverride lat lon date owner db).2)[j]? = db[j]?)) := by
  rcases findOneAndUpdate_spec (keyActiveMatch lat lon date owner) deactivate db
    with ⟨hall, heq⟩ | ⟨i, a, h1, h2, h3, h4⟩
  · exact Or.inl ⟨heq, hall⟩
  · refine Or.inr ⟨i, a, h1, h2, h3, h4, ?_⟩
    intro j hj
    rw [show (removeOverride lat lon date owner db).2
        = db.set i (deactivate a) from by rw [removeOverride, h4]]
    exact List.getElem?_set_ne (by omega)

/-- C10 witness: with two active records of the key, only the first is
patched; the second position is untouched. -/
theorem claim_C10_witness :
    removeOverride "12.0" "77.0" "2024-01-01" "a@x.com" [recA, recB]
      = (some (deactivate recA), [recA, recB].set 0 (deactivate recA)) ∧
    ((removeOverride "12.0" "77.0" "2024-01-01" "a@x.com"
        [recA, recB]).2)[1]? = [recA, recB][1]? := by
  rcases claim_C10_remove_frame "12.0" "77.0" "2024-01-01" "a@x.com"
    [recA, recB] with ⟨heq, hall⟩ | ⟨i, a, h1, h2, h3, h4, h5⟩
  · exact absurd (hall recA (by decide)) (by decide)
  · obtain rfl : i = 0 := by
      by_contra hne
      have := h3 0 recA (by omega) (by decide)
      exact absurd this (by decide)
    obtain rfl : recA = a := by
      simpa using h1
    exact ⟨h4, h5 1 (by decide)⟩
